import Mathlib

/-!
Shallow embedding of the "rabbit hole" collaborative-sentence server
(`src/server.js` and the second server variant) and proofs of the spec's
claims about it.

Strings are modelled as `List Char`.  JavaScript numbers appearing in the
projection pipeline are modelled as `JSNum` (a rational or NaN), since the
only numeric behaviour the claims depend on is the `|| 0` guard mapping
`0`, `NaN` and `undefined` to `0`.  The external PCA library is modelled as
an oracle (`PCAOracle`) with the contract the spec assigns to it.
-/

namespace RabbitHole

abbrev Str := List Char

/-- The whitespace class of JavaScript's `\s` (and `String.prototype.trim`). -/
def isWS (c : Char) : Bool :=
  c = ' ' || c = '\t' || c = '\n' || c = '\x0b' || c = '\x0c' || c = '\r' ||
  c = '\u00A0' || c = '\u1680' || c = '\u2000' || c = '\u2001' || c = '\u2002' ||
  c = '\u2003' || c = '\u2004' || c = '\u2005' || c = '\u2006' || c = '\u2007' ||
  c = '\u2008' || c = '\u2009' || c = '\u200A' || c = '\u2028' || c = '\u2029' ||
  c = '\u202F' || c = '\u205F' || c = '\u3000' || c = '\uFEFF'

/-- `String.prototype.trim`: drop whitespace from both ends. -/
def trim (s : Str) : Str :=
  ((s.dropWhile isWS).reverse.dropWhile isWS).reverse

/-- Helper for `wordCount`: count maximal runs of non-whitespace characters;
the boolean records whether we are currently inside a word. -/
def wordsAux : Str → Bool → Nat
  | [], _ => 0
  | c :: cs, inWord =>
    if isWS c then wordsAux cs false
    else (if inWord then 0 else 1) + wordsAux cs true

/-- `const count = s => s.trim().split(/\s+/).filter(Boolean).length`
(src/server.js line 50): the number of whitespace-separated tokens. -/
def wordCount (s : Str) : Nat := wordsAux s false

/-- `/[.!?]$/.test(s)` (src/server.js line 54). -/
def endsTerminal (s : Str) : Bool :=
  match s.getLast? with
  | some c => c = '.' || c = '!' || c = '?'
  | none => false

/-- The distinguishable rejection reasons of the sentence-update validation
(src/server.js lines 46, 52, 55). -/
inductive Rejection where
  | EmptyInput
  | WordCountMismatch
  | TrailingPunctuation
deriving DecidableEq, Repr

/-- The validation/acceptance logic of `POST /webhook/update`
(src/server.js lines 44-58), as a function of the previous sentence and the
candidate body: trim; reject empty; reject a word count different from the
previous count plus one when the previous sentence is non-empty; reject
trailing terminal punctuation; otherwise accept the trimmed candidate. -/
def propose (prev candidate : Str) : Except Rejection Str :=
  let incoming := trim candidate
  if incoming = [] then Except.error Rejection.EmptyInput
  else if prev ≠ [] ∧ wordCount incoming ≠ wordCount prev + 1 then
    Except.error Rejection.WordCountMismatch
  else if endsTerminal incoming then Except.error Rejection.TrailingPunctuation
  else Except.ok incoming

/- ### word-count lemmas -/

theorem wordsAux_dropWhile (s : Str) :
    wordsAux (s.dropWhile isWS) false = wordsAux s false := by
  induction s with
  | nil => rfl
  | cons c cs ih =>
    by_cases h : isWS c
    · simp [List.dropWhile, h, wordsAux, ih]
    · simp [List.dropWhile, h]

theorem wordsAux_all_ws (t : Str) (ht : ∀ c ∈ t, isWS c = true) (b : Bool) :
    wordsAux t b = 0 := by
  induction t generalizing b with
  | nil => rfl
  | cons c cs ih =>
    have hc : isWS c = true := ht c (List.mem_cons_self c cs)
    simp only [wordsAux, hc, if_true]
    exact ih (fun d hd => ht d (List.mem_cons_of_mem c hd)) false

theorem wordsAux_append_ws (t : Str) (ht : ∀ c ∈ t, isWS c = true) :
    ∀ (s : Str) (b : Bool), wordsAux (s ++ t) b = wordsAux s b := by
  intro s
  induction s with
  | nil =>
    intro b
    simpa using wordsAux_all_ws t ht b
  | cons c cs ih =>
    intro b
    by_cases h : isWS c
    · simp [wordsAux, h, ih]
    · simp [wordsAux, h, ih]

theorem exists_ws_suffix (u : Str) :
    ∃ t, u = (u.reverse.dropWhile isWS).reverse ++ t ∧ ∀ c ∈ t, isWS c = true := by
  refine ⟨(u.reverse.takeWhile isWS).reverse, ?_, ?_⟩
  · have h := congrArg List.reverse
      (List.takeWhile_append_dropWhile (p := isWS) (l := u.reverse))
    simp only [List.reverse_append, List.reverse_reverse] at h
    exact h.symm
  · intro c hc
    exact List.mem_takeWhile_imp (List.mem_reverse.mp hc)

/-- Trimming does not change the token count. -/
theorem wordCount_trim (s : Str) : wordCount (trim s) = wordCount s := by
  obtain ⟨t, hu, ht⟩ := exists_ws_suffix (s.dropWhile isWS)
  unfold wordCount trim
  calc wordsAux ((s.dropWhile isWS).reverse.dropWhile isWS).reverse false
      = wordsAux (((s.dropWhile isWS).reverse.dropWhile isWS).reverse ++ t) false :=
        (wordsAux_append_ws t ht _ _).symm
    _ = wordsAux (s.dropWhile isWS) false := by rw [← hu]
    _ = wordsAux s false := wordsAux_dropWhile s

/- ### JavaScript numbers and vector records -/

/-- A JavaScript number as the projection pipeline observes it: either NaN
or an actual (rational-modelled) value. -/
inductive JSNum where
  | nan
  | num (q : ℚ)
deriving DecidableEq, Repr

/-- `x || 0` applied to `proj[i][j]`: `undefined` (out of range), `NaN` and
`0` all collapse to `0`; any other number passes through. -/
def jsOrZero : Option JSNum → JSNum
  | none => JSNum.num 0
  | some JSNum.nan => JSNum.num 0
  | some (JSNum.num q) => if q = 0 then JSNum.num 0 else JSNum.num q

/-- One row of `vectors.json`: `{ step, t, vec }` (line 112 of the second
server variant). -/
structure VecRecord where
  step : Nat
  t : Str
  vec : List JSNum
deriving DecidableEq, Repr

/-- One row of `vectors3d.json`: `{ step, t, xyz }` (lines 59-63). -/
structure ProjRecord where
  step : Nat
  t : Str
  xyz : List JSNum
deriving DecidableEq, Repr

/-- `(list[list.length - 1]?.step || 0) + 1` (line 111): the step assigned
to the next appended record. -/
def nextStep (list : List VecRecord) : Nat :=
  (match list.getLast? with
   | some r => if r.step = 0 then 0 else r.step
   | none => 0) + 1

/-- `list.push({ step, t, vec })` with the step of `nextStep`
(lines 111-113). -/
def appendVec (list : List VecRecord) (t : Str) (v : List JSNum) : List VecRecord :=
  list ++ [⟨nextStep list, t, v⟩]

/-- A serialized history of appends starting from the empty store: each
payload `(t, vec)` is appended in order with the step `nextStep` assigns. -/
def buildHistory (ps : List (Str × List JSNum)) : List VecRecord :=
  ps.foldl (fun acc p => appendVec acc p.1 p.2) []

/- ### the PCA oracle and projectTo3D -/

/-- The surface of the external `ml-pca` library that `projectTo3D` touches:
`pca.getEigenvalues()` and `pca.predict(mat, { nComponents: k })` after
construction on `mat` with centering and no scaling. -/
structure PCAOracle where
  eigenvalues : List (List JSNum) → List JSNum
  predict : List (List JSNum) → Nat → List (List JSNum)

/-- The contract the spec assigns to the external centered PCA primitive:
`predict` returns one output row per input row, each of width
`nComponents`, and on a single-row input the centered point sits at the
origin, so every predicted coordinate is 0. -/
structure PCAContract (pca : PCAOracle) : Prop where
  predict_length : ∀ mat k, (pca.predict mat k).length = mat.length
  predict_width : ∀ mat k row, row ∈ pca.predict mat k → row.length = k
  predict_single : ∀ v k row, row ∈ pca.predict [v] k → ∀ x ∈ row, x = JSNum.num 0

/-- `{ step: row.step, t: row.t, xyz: [proj[i][0] || 0, ...] }` for one
record (lines 59-63); `none` models the TypeError thrown when `proj[i]` is
`undefined`. -/
def projRow (proj : List (List JSNum)) (r : VecRecord) (i : Nat) : Option ProjRecord :=
  match proj.get? i with
  | none => none
  | some row =>
    some ⟨r.step, r.t, [jsOrZero (row.get? 0), jsOrZero (row.get? 1), jsOrZero (row.get? 2)]⟩

/-- `vectors.map((row, i) => ...)` over `projRow`, evaluated left to right,
aborting at the first thrown TypeError. -/
def projRows (proj : List (List JSNum)) : List VecRecord → Nat → Option (List ProjRecord)
  | [], _ => some []
  | r :: rs, i =>
    match projRow proj r i with
    | none => none
    | some p =>
      match projRows proj rs (i + 1) with
      | none => none
      | some ps => some (p :: ps)

/-- `projectTo3D(vectors)` (lines 53-64): empty input short-circuits to
`[]`; otherwise take `k = min(3, eigenvalue count)`, predict with `k`
components and build one `xyz` triple per record with the `|| 0` guard. -/
def projectTo3D (pca : PCAOracle) (vectors : List VecRecord) : Option (List ProjRecord) :=
  if vectors.length = 0 then some []
  else
    let mat := vectors.map (·.vec)
    let k := min 3 (pca.eigenvalues mat).length
    let proj := pca.predict mat k
    projRows proj vectors 0

/- ### persisted files and handlers -/

/-- The observable states of one backing file: present with a decoded
value, absent, or unreadable/unparsable (any `readFileSync`/`JSON.parse`
throw). -/
inductive FileState (α : Type) where
  | missing
  | corrupt
  | ok (v : α)
deriving DecidableEq, Repr

/-- `loadJson(file, fallback)` (lines 46-48): the decoded value, or the
fallback when reading or parsing throws. -/
def loadJson {α : Type} (f : FileState α) (fallback : α) : α :=
  match f with
  | FileState.ok v => v
  | _ => fallback

/-- `readSentence()` (lines 15-18 of src/server.js): the trimmed file
content, or the empty string when reading throws. -/
def readSentenceFS (f : FileState Str) : Str :=
  match f with
  | FileState.ok s => trim s
  | _ => []

/-- `loadJson(VEC_FILE, [])`. -/
def readVectors (f : FileState (List VecRecord)) : List VecRecord :=
  loadJson f []

/-- `loadJson(PROJ_FILE, [])`. -/
def readProjection (f : FileState (List ProjRecord)) : List ProjRecord :=
  loadJson f []

/-- The three persisted files of the full server variant: `sentence.txt`,
`vectors.json`, `vectors3d.json`. -/
structure ServerState where
  dataFile : FileState Str
  vecFile : FileState (List VecRecord)
  projFile : FileState (List ProjRecord)
deriving DecidableEq, Repr

/-- The responses the handlers can produce. -/
inductive Resp where
  | unauthorized
  | badRequest (r : Rejection)
  | okText (s : Str)
  | okCleared
deriving DecidableEq, Repr

/-- `POST /webhook/update` of src/server.js (lines 37-61): auth check, then
the `propose` validation; a successful proposal overwrites the sentence
file, a rejected one leaves the state untouched. The header is `none` when
`X-Secret` is absent (`req.header(...) || ''`). -/
def updateHandler (secret : Str) (hdr : Option Str) (body : Str)
    (dataFile : FileState Str) : Resp × FileState Str :=
  let token := hdr.getD []
  if secret = [] ∨ token ≠ secret then (Resp.unauthorized, dataFile)
  else
    match propose (readSentenceFS dataFile) body with
    | Except.error r => (Resp.badRequest r, dataFile)
    | Except.ok incoming => (Resp.okText incoming, FileState.ok incoming)

/-- The environment of one run of the detached background task (lines
103-121 of the full server variant): the embedder's outcome, the PCA
oracle, whether each `saveJson` succeeds, and the timestamp taken. -/
structure BgEnv where
  embedResult : Except Str (List JSNum)
  pca : PCAOracle
  saveVecOk : Bool
  saveProjOk : Bool
  now : Str

/-- The detached `async` block of `POST /webhook/update` (lines 103-121):
embed, load the vector list, append, save, project, save; every throw is
caught, leaving the state as of the last completed whole-file write. -/
def backgroundTask (env : BgEnv) (st : ServerState) : ServerState :=
  match env.embedResult with
  | Except.error _ => st
  | Except.ok vec =>
    let list := readVectors st.vecFile
    let newList := appendVec list env.now vec
    if env.saveVecOk = false then st
    else
      let st1 := { st with vecFile := FileState.ok newList }
      match projectTo3D env.pca newList with
      | none => st1
      | some proj =>
        if env.saveProjOk = false then st1
        else { st1 with projFile := FileState.ok proj }

/-- `POST /webhook/update` of the full server variant (lines 89-122): auth
check, trim, reject empty, persist and echo the sentence, then run the
detached background task. -/
def updateHandlerFull (secret : Str) (hdr : Option Str) (body : Str)
    (env : BgEnv) (st : ServerState) : Resp × ServerState :=
  let token := hdr.getD []
  if secret = [] ∨ token ≠ secret then (Resp.unauthorized, st)
  else
    let incoming := trim body
    if incoming = [] then (Resp.badRequest Rejection.EmptyInput, st)
    else
      let st1 := { st with dataFile := FileState.ok incoming }
      (Resp.okText incoming, backgroundTask env st1)

/-- `POST /reset` (lines 147-161): auth check, then unlink all three data
files (success path). -/
def resetHandler (secret : Str) (hdr : Option Str) (st : ServerState) :
    Resp × ServerState :=
  let token := hdr.getD []
  if secret = [] ∨ token ≠ secret then (Resp.unauthorized, st)
  else (Resp.okCleared, ⟨FileState.missing, FileState.missing, FileState.missing⟩)

/- ### claim theorems -/

/-- C1.  For every non-empty current sentence `prev` and candidate `c`,
`propose` accepts `c` iff the trimmed candidate is non-empty, its token
count is the previous count plus one, and it does not end in `.`, `!` or
`?`; the rejection reasons are `EmptyInput`, `WordCountMismatch` and
`TrailingPunctuation`, checked in that order. -/
theorem propose_correct (prev c : Str) (hprev : prev ≠ []) :
    ((∃ s, propose prev c = Except.ok s) ↔
      (trim c ≠ [] ∧ wordCount c = wordCount prev + 1 ∧ endsTerminal (trim c) = false)) ∧
    (propose prev c = Except.error Rejection.EmptyInput ↔ trim c = []) ∧
    (propose prev c = Except.error Rejection.WordCountMismatch ↔
      (trim c ≠ [] ∧ wordCount c ≠ wordCount prev + 1)) ∧
    (propose prev c = Except.error Rejection.TrailingPunctuation ↔
      (trim c ≠ [] ∧ wordCount c = wordCount prev + 1 ∧ endsTerminal (trim c) = true)) := by
  have hwc : wordCount (trim c) = wordCount c := wordCount_trim c
  by_cases h1 : trim c = [] <;>
    by_cases h2 : wordCount c = wordCount prev + 1 <;>
    by_cases h3 : endsTerminal (trim c) = true <;>
    simp [propose, h1, h2, h3, hwc, hprev]

/-- C1 witness: with current sentence "the rabbit hole", the candidate
"the rabbit hole goes" is accepted. -/
theorem propose_correct_witness :
    ∃ s, propose ("the rabbit hole".toList) ("the rabbit hole goes".toList) = Except.ok s :=
  ((propose_correct ("the rabbit hole".toList) ("the rabbit hole goes".toList)
    (by decide)).1).mpr (by decide)

/-- Helper: acceptance criterion of `propose` against the empty sentence. -/
theorem propose_nil_accepts_iff (c : Str) :
    (∃ s, propose [] c = Except.ok s) ↔
      (trim c ≠ [] ∧ endsTerminal (trim c) = false) := by
  by_cases h1 : trim c = [] <;> by_cases h3 : endsTerminal (trim c) = true <;>
    simp [propose, h1, h3]

/-- C2.  When the current sentence is empty, `propose` accepts exactly the
candidates whose trimmed form is non-empty and does not end in terminal
punctuation — the word count is not constrained. -/
theorem propose_bootstrap (c : Str) :
    (∃ s, propose [] c = Except.ok s) ↔
      (trim c ≠ [] ∧ endsTerminal (trim c) = false) :=
  propose_nil_accepts_iff c

/-- C3.  A rejected proposal leaves the persisted state untouched: in
src/server.js the sentence file is returned unchanged, and in the full
server variant the whole state (sentence, vectors, projection) is
unchanged. -/
theorem reject_preserves_state (secret : Str) (hdr : Option Str) (body : Str)
    (df : FileState Str) (env : BgEnv) (st : ServerState) (r r' : Rejection) :
    ((updateHandler secret hdr body df).1 = Resp.badRequest r →
      (updateHandler secret hdr body df).2 = df) ∧
    ((updateHandlerFull secret hdr body env st).1 = Resp.badRequest r' →
      (updateHandlerFull secret hdr body env st).2 = st) := by
  constructor
  · intro h
    by_cases hc : secret = [] ∨ hdr.getD [] ≠ secret
    · simp [updateHandler, hc]
    · rcases hp : propose (readSentenceFS df) body with r0 | s0
      · simp [updateHandler, hc, hp]
      · simp [updateHandler, hc, hp] at h
  · intro h
    by_cases hc : secret = [] ∨ hdr.getD [] ≠ secret
    · simp [updateHandlerFull, hc]
    · by_cases he : trim body = []
      · simp [updateHandlerFull, hc, he]
      · simp [updateHandlerFull, hc, he] at h

/-- C3 witness: a trailing-punctuation rejection leaves the sentence file
as it was. -/
theorem reject_preserves_state_witness :
    (updateHandler ("s".toList) (some ("s".toList)) ("the rabbit hole goes deep.".toList)
      (FileState.ok ("the rabbit hole goes".toList))).2
      = FileState.ok ("the rabbit hole goes".toList) :=
  (reject_preserves_state ("s".toList) (some ("s".toList))
    ("the rabbit hole goes deep.".toList) (FileState.ok ("the rabbit hole goes".toList))
    ⟨Except.error ['e'], ⟨fun _ => [], fun _ _ => []⟩, true, true, []⟩
    ⟨FileState.missing, FileState.missing, FileState.missing⟩
    Rejection.TrailingPunctuation Rejection.EmptyInput).1 (by decide)

/-- C7.  Every read of persisted state that fails — missing file or
unreadable/unparsable content — yields the empty default: empty string for
the sentence, empty sequence for the vector history and the projection. -/
theorem reads_fall_back_to_empty (fs : FileState Str)
    (fv : FileState (List VecRecord)) (fp : FileState (List ProjRecord))
    (hs : fs = FileState.missing ∨ fs = FileState.corrupt)
    (hv : fv = FileState.missing ∨ fv = FileState.corrupt)
    (hp : fp = FileState.missing ∨ fp = FileState.corrupt) :
    readSentenceFS fs = [] ∧ readVectors fv = [] ∧ readProjection fp = [] := by
  refine ⟨?_, ?_, ?_⟩
  · rcases hs with h | h <;> subst h <;> rfl
  · rcases hv with h | h <;> subst h <;> rfl
  · rcases hp with h | h <;> subst h <;> rfl

/-- C7 witness: a missing sentence file, a corrupt vector file and a
missing projection file all read as empty. -/
theorem reads_fall_back_to_empty_witness :
    readSentenceFS FileState.missing = [] ∧
    readVectors FileState.corrupt = [] ∧
    readProjection FileState.missing = [] :=
  reads_fall_back_to_empty FileState.missing FileState.corrupt FileState.missing
    (by decide) (by decide) (by decide)

/-- C8.  An authorized reset succeeds and afterwards the sentence reads as
empty, the vector history and the projection read as empty sequences, and
`propose` against the post-reset sentence behaves as the bootstrap case:
accepted at any word count, constrained only by non-emptiness and terminal
punctuation. -/
theorem reset_clears (secret : Str) (hdr : Option Str) (st : ServerState)
    (hauth : secret ≠ [] ∧ hdr.getD [] = secret) :
    (resetHandler secret hdr st).1 = Resp.okCleared ∧
    readSentenceFS (resetHandler secret hdr st).2.dataFile = [] ∧
    readVectors (resetHandler secret hdr st).2.vecFile = [] ∧
    readProjection (resetHandler secret hdr st).2.projFile = [] ∧
    (∀ c, (∃ s, propose (readSentenceFS (resetHandler secret hdr st).2.dataFile) c
        = Except.ok s) ↔ (trim c ≠ [] ∧ endsTerminal (trim c) = false)) := by
  obtain ⟨h1, h2⟩ := hauth
  have hcond : ¬(secret = [] ∨ hdr.getD [] ≠ secret) := by
    push_neg
    exact ⟨h1, h2⟩
  simp only [resetHandler]
  rw [if_neg hcond]
  exact ⟨rfl, rfl, rfl, rfl, fun c => propose_nil_accepts_iff c⟩

/-- C8 witness: resetting a populated store with the right secret clears
everything and a three-word candidate is then accepted. -/
theorem reset_clears_witness :
    readSentenceFS (resetHandler ("s".toList) (some ("s".toList))
      ⟨FileState.ok ("the rabbit hole".toList),
       FileState.ok [⟨1, [], [JSNum.num 1]⟩],
       FileState.ok [⟨1, [], [JSNum.num 0, JSNum.num 0, JSNum.num 0]⟩]⟩).2.dataFile = [] ∧
    (∃ s, propose (readSentenceFS (resetHandler ("s".toList) (some ("s".toList))
      ⟨FileState.ok ("the rabbit hole".toList),
       FileState.ok [⟨1, [], [JSNum.num 1]⟩],
       FileState.ok [⟨1, [], [JSNum.num 0, JSNum.num 0, JSNum.num 0]⟩]⟩).2.dataFile)
      ("hello world deep".toList) = Except.ok s) := by
  have h := reset_clears ("s".toList) (some ("s".toList))
    ⟨FileState.ok ("the rabbit hole".toList),
     FileState.ok [⟨1, [], [JSNum.num 1]⟩],
     FileState.ok [⟨1, [], [JSNum.num 0, JSNum.num 0, JSNum.num 0]⟩]⟩ (by decide)
  exact ⟨h.2.1, (h.2.2.2.2 ("hello world deep".toList)).mpr (by decide)⟩

/-- C10.  A protected request is granted exactly when the configured secret
is non-empty and the supplied credential equals it; in particular, with an
unset/empty secret every request is unauthorized, even one carrying an
empty credential.  This holds for both update handlers and for reset. -/
theorem auth_required (secret : Str) (hdr : Option Str) (body : Str)
    (df : FileState Str) (env : BgEnv) (st : ServerState) :
    ((updateHandler secret hdr body df).1 = Resp.unauthorized ↔
      ¬(secret ≠ [] ∧ hdr.getD [] = secret)) ∧
    ((updateHandlerFull secret hdr body env st).1 = Resp.unauthorized ↔
      ¬(secret ≠ [] ∧ hdr.getD [] = secret)) ∧
    ((resetHandler secret hdr st).1 = Resp.unauthorized ↔
      ¬(secret ≠ [] ∧ hdr.getD [] = secret)) := by
  by_cases hc : secret = [] ∨ hdr.getD [] ≠ secret
  · have hn : ¬(secret ≠ [] ∧ hdr.getD [] = secret) := by
      rcases hc with h | h
      · exact fun hx => hx.1 h
      · exact fun hx => h hx.2
    unfold updateHandler updateHandlerFull resetHandler
    simp only [if_pos hc]
    exact ⟨by simp [hn], by simp [hn], by simp [hn]⟩
  · have hp : secret ≠ [] ∧ hdr.getD [] = secret := by
      push_neg at hc
      exact hc
    unfold updateHandler updateHandlerFull resetHandler
    simp only [if_neg hc]
    refine ⟨?_, ?_, by simp [hp]⟩
    · constructor
      · intro h
        split at h <;> simp_all
      · intro h
        exact absurd hp h
    · constructor
      · intro h
        split at h <;> simp_all
      · intro h
        exact absurd hp h

/-- C10 witness: with an empty configured secret, a request carrying an
empty credential is still unauthorized. -/
theorem auth_required_witness :
    (updateHandler [] (some []) ("abc".toList) FileState.missing).1 = Resp.unauthorized :=
  ((auth_required [] (some []) ("abc".toList) FileState.missing
    ⟨Except.error ['e'], ⟨fun _ => [], fun _ _ => []⟩, true, true, []⟩
    ⟨FileState.missing, FileState.missing, FileState.missing⟩).1).mpr (by decide)

/- ### step-assignment lemmas (C4) -/

/-- The step invariant: the record at index `i` carries step `i + 1`. -/
def StepsOK (l : List VecRecord) : Prop :=
  ∀ i (h : i < l.length), (l.get ⟨i, h⟩).step = i + 1

theorem stepsOK_nil : StepsOK [] := by
  intro i h
  simp at h

theorem nextStep_of_stepsOK (l : List VecRecord) (h : StepsOK l) :
    nextStep l = l.length + 1 := by
  unfold nextStep
  match hl : l.getLast? with
  | none =>
    have : l = [] := List.getLast?_eq_none_iff.mp hl
    subst this
    rfl
  | some r =>
    have hne : l ≠ [] := by
      intro he
      subst he
      simp at hl
    have hlen : 0 < l.length := List.length_pos.mpr hne
    have hget : l.getLast? = some (l.get ⟨l.length - 1, by omega⟩) := by
      rw [List.getLast?_eq_getLast _ hne, List.getLast_eq_get]
    rw [hl] at hget
    have hr : r = l.get ⟨l.length - 1, by omega⟩ := by
      injection hget
    have hstep : r.step = (l.length - 1) + 1 := by
      rw [hr]
      exact h (l.length - 1) (by omega)
    change (if r.step = 0 then 0 else r.step) + 1 = l.length + 1
    rw [hstep]
    have hll : l.length - 1 + 1 = l.length := by omega
    rw [hll, if_neg (by omega)]

theorem stepsOK_append (l : List VecRecord) (t : Str) (v : List JSNum)
    (h : StepsOK l) : StepsOK (appendVec l t v) := by
  intro i hi
  unfold appendVec at hi ⊢
  rcases Nat.lt_or_ge i l.length with hlt | hge
  · rw [List.get_append i hlt]
    exact h i hlt
  · have hlen : (l ++ [(⟨nextStep l, t, v⟩ : VecRecord)]).length = l.length + 1 := by
      simp
    have hieq : i = l.length := by
      rw [hlen] at hi
      omega
    subst hieq
    have hget : (l ++ [(⟨nextStep l, t, v⟩ : VecRecord)]).get ⟨l.length, hi⟩
        = ⟨nextStep l, t, v⟩ := by
      rw [List.get_append_right _ _ (by omega)] <;> simp
    rw [hget, nextStep_of_stepsOK l h]

theorem stepsOK_foldl (ps : List (Str × List JSNum)) :
    ∀ acc, StepsOK acc →
      StepsOK (ps.foldl (fun acc p => appendVec acc p.1 p.2) acc) := by
  induction ps with
  | nil =>
    intro acc h
    exact h
  | cons p ps ih =>
    intro acc h
    exact ih (appendVec acc p.1 p.2) (stepsOK_append acc p.1 p.2 h)

/-- C4.  In a history built by serialized appends from the empty store —
each append assigning `step = (last step, or 0) + 1` — the record at
position `i` (0-based) carries step `i + 1`: steps are `1, 2, 3, ...` with
no gaps. -/
theorem steps_consecutive (ps : List (Str × List JSNum)) (i : Nat)
    (h : i < (buildHistory ps).length) :
    ((buildHistory ps).get ⟨i, h⟩).step = i + 1 :=
  stepsOK_foldl ps [] stepsOK_nil i h

/-- C4 witness: a two-append history carries steps 1 and 2. -/
theorem steps_consecutive_witness :
    ((buildHistory [([], [JSNum.num 1]), ([], [JSNum.num 2])]).get
      ⟨1, by decide⟩).step = 1 + 1 :=
  steps_consecutive [([], [JSNum.num 1]), ([], [JSNum.num 2])] 1 (by decide)


/- ### projection lemmas (C5, C6) -/

theorem jsOrZero_is_num (o : Option JSNum) : ∃ q, jsOrZero o = JSNum.num q := by
  match o with
  | none => exact ⟨0, rfl⟩
  | some JSNum.nan => exact ⟨0, rfl⟩
  | some (JSNum.num q) =>
    by_cases h : q = 0
    · exact ⟨0, by simp [jsOrZero, h]⟩
    · exact ⟨q, by simp [jsOrZero, h]⟩

theorem jsOrZero_of_all_zero (row : List JSNum)
    (hrow : ∀ x ∈ row, x = JSNum.num 0) (j : Nat) :
    jsOrZero (row.get? j) = JSNum.num 0 := by
  match hg : row.get? j with
  | none => rfl
  | some x =>
    have hx : x ∈ row := List.get?_mem hg
    rw [hrow x hx]
    simp [jsOrZero]

/-- The behaviour of the `vectors.map((row, i) => ...)` loop when the
predicted matrix has a row for every index in range: it succeeds, keeps
length and order, carries `step`/`t` through, and builds each `xyz` from
row `i + j` of the predicted matrix with the `|| 0` guard. -/
theorem projRows_spec (proj : List (List JSNum)) :
    ∀ (rs : List VecRecord) (i : Nat), i + rs.length ≤ proj.length →
      ∃ out, projRows proj rs i = some out ∧ out.length = rs.length ∧
        ∀ j (hj : j < rs.length) (hj' : j < out.length),
          (out.get ⟨j, hj'⟩).step = (rs.get ⟨j, hj⟩).step ∧
          (out.get ⟨j, hj'⟩).t = (rs.get ⟨j, hj⟩).t ∧
          ∃ row, proj.get? (i + j) = some row ∧
            (out.get ⟨j, hj'⟩).xyz =
              [jsOrZero (row.get? 0), jsOrZero (row.get? 1), jsOrZero (row.get? 2)] := by
  intro rs
  induction rs with
  | nil =>
    intro i _
    refine ⟨[], rfl, rfl, ?_⟩
    intro j hj
    simp at hj
  | cons r rs ih =>
    intro i hle
    have hi : i < proj.length := by
      simp at hle
      omega
    have hrow : proj.get? i = some (proj.get ⟨i, hi⟩) := List.get?_eq_get hi
    obtain ⟨out, hout, hlen, hspec⟩ := ih (i + 1) (by simp at hle ⊢; omega)
    refine ⟨⟨r.step, r.t, [jsOrZero ((proj.get ⟨i, hi⟩).get? 0),
        jsOrZero ((proj.get ⟨i, hi⟩).get? 1),
        jsOrZero ((proj.get ⟨i, hi⟩).get? 2)]⟩ :: out, ?_, by simp [hlen], ?_⟩
    · unfold projRows projRow
      rw [hrow, hout]
    · intro j hj hj'
      match j with
      | 0 =>
        refine ⟨rfl, rfl, proj.get ⟨i, hi⟩, by simpa using hrow, rfl⟩
      | Nat.succ j =>
        have hjr : j < rs.length := by simpa using hj
        have hjo : j < out.length := by omega
        obtain ⟨h1, h2, row, hr1, hr2⟩ := hspec j hjr hjo
        refine ⟨h1, h2, row, ?_, hr2⟩
        have : i + 1 + j = i + (j + 1) := by omega
        rw [← this]
        exact hr1

/-- C5.  Under the centered-PCA contract, `projectTo3D` never throws, maps
an empty history to the empty sequence, returns exactly one projection per
input record preserving input order with `step` and `t` carried through
unchanged, and maps a single record to the origin triple `[0, 0, 0]`. -/
theorem project_preserves_structure (pca : PCAOracle) (hc : PCAContract pca) :
    (projectTo3D pca [] = some []) ∧
    (∀ vectors, projectTo3D pca vectors ≠ none) ∧
    (∀ vectors out, projectTo3D pca vectors = some out →
      out.length = vectors.length ∧
      ∀ j (hj : j < vectors.length) (hj' : j < out.length),
        (out.get ⟨j, hj'⟩).step = (vectors.get ⟨j, hj⟩).step ∧
        (out.get ⟨j, hj'⟩).t = (vectors.get ⟨j, hj⟩).t) ∧
    (∀ r, projectTo3D pca [r] =
      some [⟨r.step, r.t, [JSNum.num 0, JSNum.num 0, JSNum.num 0]⟩]) := by
  have hmain : ∀ vectors, vectors ≠ ([] : List VecRecord) →
      ∃ out, projectTo3D pca vectors = some out ∧ out.length = vectors.length ∧
        ∀ j (hj : j < vectors.length) (hj' : j < out.length),
          (out.get ⟨j, hj'⟩).step = (vectors.get ⟨j, hj⟩).step ∧
          (out.get ⟨j, hj'⟩).t = (vectors.get ⟨j, hj⟩).t ∧
          ∃ row, (pca.predict (vectors.map (·.vec))
              (min 3 (pca.eigenvalues (vectors.map (·.vec))).length)).get? j = some row ∧
            (out.get ⟨j, hj'⟩).xyz =
              [jsOrZero (row.get? 0), jsOrZero (row.get? 1), jsOrZero (row.get? 2)] := by
    intro vectors hne
    have hlen0 : vectors.length ≠ 0 := by
      simpa [List.length_eq_zero] using hne
    have hplen : (pca.predict (vectors.map (·.vec))
        (min 3 (pca.eigenvalues (vectors.map (·.vec))).length)).length
        = vectors.length := by
      rw [hc.predict_length]
      simp
    obtain ⟨out, hout, hl, hs⟩ := projRows_spec
      (pca.predict (vectors.map (·.vec))
        (min 3 (pca.eigenvalues (vectors.map (·.vec))).length))
      vectors 0 (by omega)
    refine ⟨out, ?_, hl, ?_⟩
    · unfold projectTo3D
      rw [if_neg hlen0]
      exact hout
    · intro j hj hj'
      obtain ⟨h1, h2, row, hr1, hr2⟩ := hs j hj hj'
      exact ⟨h1, h2, row, by simpa using hr1, hr2⟩
  refine ⟨rfl, ?_, ?_, ?_⟩
  · intro vectors hnone
    by_cases hne : vectors = []
    · subst hne
      exact Option.noConfusion ((rfl : projectTo3D pca [] = some []) ▸ hnone)
    · obtain ⟨out, hout, _⟩ := hmain vectors hne
      rw [hout] at hnone
      exact Option.noConfusion hnone
  · intro vectors out hout
    by_cases hne : vectors = []
    · subst hne
      have : out = [] := by
        have h0 : (some [] : Option (List ProjRecord)) = some out := hout ▸ rfl
        injection h0 with h0
        exact h0.symm
      subst this
      exact ⟨rfl, fun j hj hj' => by simp at hj⟩
    · obtain ⟨out2, hout2, hl, hs⟩ := hmain vectors hne
      rw [hout2] at hout
      injection hout with hout
      subst hout
      exact ⟨hl, fun j hj hj' => ⟨(hs j hj hj').1, (hs j hj hj').2.1⟩⟩
  · intro r
    obtain ⟨out, hout, hl, hs⟩ := hmain [r] (by simp)
    have h1 : out.length = 1 := by simpa using hl
    obtain ⟨p, hp⟩ := List.length_eq_one.mp h1
    subst hp
    obtain ⟨hstep, ht, row, hrow, hxyz⟩ := hs 0 (by simp) (by simp)
    have hrmem : row ∈ pca.predict [r.vec]
        (min 3 (pca.eigenvalues [r.vec]).length) := by
      simp at hrow
      exact List.get?_mem (by simpa using hrow)
    have hzero : ∀ x ∈ row, x = JSNum.num 0 :=
      hc.predict_single r.vec _ row (by simpa using hrmem)
    have hx : p.xyz = [JSNum.num 0, JSNum.num 0, JSNum.num 0] := by
      simp only [List.get] at hxyz
      rw [hxyz, jsOrZero_of_all_zero row hzero, jsOrZero_of_all_zero row hzero,
        jsOrZero_of_all_zero row hzero]
    rw [hout]
    congr 1
    have hps : p.step = r.step := by simpa using hstep
    have hpt : p.t = r.t := by simpa using ht
    calc [p] = [⟨p.step, p.t, p.xyz⟩] := by simp
      _ = [⟨r.step, r.t, [JSNum.num 0, JSNum.num 0, JSNum.num 0]⟩] := by
          rw [hps, hpt, hx]

/-- A concrete PCA oracle used to instantiate the contract: every point
predicts to the origin and a single eigenvalue is reported. -/
def zeroOracle : PCAOracle where
  eigenvalues := fun _ => [JSNum.num 1]
  predict := fun mat k => mat.map (fun _ => List.replicate k (JSNum.num 0))

theorem zeroOracle_contract : PCAContract zeroOracle := by
  refine ⟨?_, ?_, ?_⟩
  · intro mat k
    simp [zeroOracle]
  · intro mat k row hrow
    simp only [zeroOracle, List.mem_map] at hrow
    obtain ⟨a, _, ha⟩ := hrow
    rw [← ha]
    simp
  · intro v k row hrow x hx
    simp only [zeroOracle, List.mem_map] at hrow
    obtain ⟨a, _, ha⟩ := hrow
    rw [← ha] at hx
    exact List.eq_of_mem_replicate hx

/-- C5 witness: under the contract-satisfying oracle, a single record
projects to the origin triple with its step and timestamp intact. -/
theorem project_preserves_structure_witness :
    projectTo3D zeroOracle [⟨1, [], [JSNum.num 5]⟩]
      = some [⟨1, [], [JSNum.num 0, JSNum.num 0, JSNum.num 0]⟩] :=
  (project_preserves_structure zeroOracle zeroOracle_contract).2.2.2
    ⟨1, [], [JSNum.num 5]⟩

/-- C6.  For every non-empty input that projects successfully, every `xyz`
component is an actual number — never NaN or undefined — and when
`k = min(3, available components) < 3` the components at positions `k` and
beyond are zero-filled. -/
theorem project_zero_fill (pca : PCAOracle) (hc : PCAContract pca)
    (vectors : List VecRecord) (out : List ProjRecord)
    (hne : vectors ≠ []) (hout : projectTo3D pca vectors = some out) :
    (∀ rec ∈ out, ∀ x ∈ rec.xyz, ∃ q, x = JSNum.num q) ∧
    (∀ rec ∈ out, ∀ j,
      min 3 (pca.eigenvalues (vectors.map (·.vec))).length ≤ j → j < 3 →
      rec.xyz.get? j = some (JSNum.num 0)) := by
  have hlen0 : vectors.length ≠ 0 := by
    simpa [List.length_eq_zero] using hne
  have hplen : (pca.predict (vectors.map (·.vec))
      (min 3 (pca.eigenvalues (vectors.map (·.vec))).length)).length
      = vectors.length := by
    rw [hc.predict_length]
    simp
  obtain ⟨out2, hout2, hl, hs⟩ := projRows_spec
    (pca.predict (vectors.map (·.vec))
      (min 3 (pca.eigenvalues (vectors.map (·.vec))).length))
    vectors 0 (by omega)
  have houteq : out2 = out := by
    unfold projectTo3D at hout
    rw [if_neg hlen0] at hout
    simp only at hout
    rw [hout2] at hout
    injection hout
  subst houteq
  have hxyz : ∀ rec ∈ out2, ∃ row, row ∈ pca.predict (vectors.map (·.vec))
      (min 3 (pca.eigenvalues (vectors.map (·.vec))).length) ∧
      row.length = min 3 (pca.eigenvalues (vectors.map (·.vec))).length ∧
      rec.xyz = [jsOrZero (row.get? 0), jsOrZero (row.get? 1), jsOrZero (row.get? 2)] := by
    intro rec hrec
    obtain ⟨⟨j, hj'⟩, hjget⟩ := List.mem_iff_get.mp hrec
    have hj : j < vectors.length := by omega
    obtain ⟨_, _, row, hr1, hr2⟩ := hs j hj hj'
    have hmem : row ∈ pca.predict (vectors.map (·.vec))
        (min 3 (pca.eigenvalues (vectors.map (·.vec))).length) :=
      List.get?_mem (by simpa using hr1)
    exact ⟨row, hmem, hc.predict_width _ _ row hmem, by rw [← hjget]; exact hr2⟩
  constructor
  · intro rec hrec x hx
    obtain ⟨row, _, _, hx3⟩ := hxyz rec hrec
    rw [hx3] at hx
    simp only [List.mem_cons, List.not_mem_nil, or_false] at hx
    rcases hx with h | h | h <;> (rw [h]; exact jsOrZero_is_num _)
  · intro rec hrec j hkj hj3
    obtain ⟨row, _, hwidth, hx3⟩ := hxyz rec hrec
    have hrnone : row.get? j = none := by
      rw [List.get?_eq_none]
      omega
    have hval : jsOrZero (row.get? j) = JSNum.num 0 := by
      rw [hrnone]
      rfl
    rw [hx3]
    match j, hj3 with
    | 0, _ =>
      simpa using hval
    | 1, _ =>
      simpa using hval
    | 2, _ =>
      simpa using hval

/-- C6 witness: with one usable component (`k = 1 < 3`) the second and
third coordinates are zero-filled and every coordinate is a number. -/
theorem project_zero_fill_witness :
    ((([⟨1, [], [JSNum.num 0, JSNum.num 0, JSNum.num 0]⟩,
        ⟨2, [], [JSNum.num 0, JSNum.num 0, JSNum.num 0]⟩] : List ProjRecord).get
        ⟨0, by decide⟩).xyz.get? 1 = some (JSNum.num 0)) := by
  have h := project_zero_fill zeroOracle zeroOracle_contract
    [⟨1, [], [JSNum.num 5]⟩, ⟨2, [], [JSNum.num 7]⟩]
    [⟨1, [], [JSNum.num 0, JSNum.num 0, JSNum.num 0]⟩,
     ⟨2, [], [JSNum.num 0, JSNum.num 0, JSNum.num 0]⟩]
    (by decide) (by decide)
  exact h.2 _ (by decide) 1 (by decide) (by decide)

/-- C9.  Failures in the post-acceptance background path are invisible to
the caller and never corrupt the persisted state: the response does not
depend on the background environment; the background task never touches the
sentence file; a failed embed or a failed vector save leaves the whole
state unchanged; the vector file is either untouched or holds exactly one
proper append; the projection file is either the previous one or the
complete projection of the saved vector list — never a partial one — and a
failed projection save leaves it untouched. -/
theorem background_failure_isolated (secret : Str) (hdr : Option Str)
    (body : Str) (st : ServerState) (env env2 : BgEnv) :
    ((updateHandlerFull secret hdr body env st).1 =
      (updateHandlerFull secret hdr body env2 st).1) ∧
    ((backgroundTask env st).dataFile = st.dataFile) ∧
    ((∃ e, env.embedResult = Except.error e) → backgroundTask env st = st) ∧
    (env.saveVecOk = false → backgroundTask env st = st) ∧
    ((backgroundTask env st).vecFile = st.vecFile ∨
      ∃ vec, env.embedResult = Except.ok vec ∧
        (backgroundTask env st).vecFile =
          FileState.ok (appendVec (readVectors st.vecFile) env.now vec)) ∧
    ((backgroundTask env st).projFile = st.projFile ∨
      ∃ l proj, (backgroundTask env st).vecFile = FileState.ok l ∧
        projectTo3D env.pca l = some proj ∧
        (backgroundTask env st).projFile = FileState.ok proj) ∧
    (env.saveProjOk = false → (backgroundTask env st).projFile = st.projFile) := by
  have hresp : (updateHandlerFull secret hdr body env st).1 =
      (updateHandlerFull secret hdr body env2 st).1 := by
    by_cases hc : secret = [] ∨ hdr.getD [] ≠ secret
    · simp [updateHandlerFull, hc]
    · by_cases he : trim body = []
      · simp [updateHandlerFull, hc, he]
      · simp [updateHandlerFull, hc, he]
  refine ⟨hresp, ?_, ?_, ?_, ?_, ?_, ?_⟩
  · rcases hemb : env.embedResult with e | vec
    · simp [backgroundTask, hemb]
    · rcases hsv : env.saveVecOk with _ | _
      · simp [backgroundTask, hemb, hsv]
      · rcases hproj : projectTo3D env.pca
            (appendVec (readVectors st.vecFile) env.now vec) with _ | proj
        · simp [backgroundTask, hemb, hsv, hproj]
        · rcases hsp : env.saveProjOk with _ | _ <;>
            simp [backgroundTask, hemb, hsv, hproj, hsp]
  · rintro ⟨e, hemb⟩
    simp [backgroundTask, hemb]
  · intro hsv
    rcases hemb : env.embedResult with e | vec
    · simp [backgroundTask, hemb]
    · simp [backgroundTask, hemb, hsv]
  · rcases hemb : env.embedResult with e | vec
    · exact Or.inl (by simp [backgroundTask, hemb])
    · rcases hsv : env.saveVecOk with _ | _
      · exact Or.inl (by simp [backgroundTask, hemb, hsv])
      · rcases hproj : projectTo3D env.pca
            (appendVec (readVectors st.vecFile) env.now vec) with _ | proj
        · exact Or.inr ⟨vec, rfl, by simp [backgroundTask, hemb, hsv, hproj]⟩
        · rcases hsp : env.saveProjOk with _ | _
          · exact Or.inr ⟨vec, rfl, by simp [backgroundTask, hemb, hsv, hproj, hsp]⟩
          · exact Or.inr ⟨vec, rfl, by simp [backgroundTask, hemb, hsv, hproj, hsp]⟩
  · rcases hemb : env.embedResult with e | vec
    · exact Or.inl (by simp [backgroundTask, hemb])
    · rcases hsv : env.saveVecOk with _ | _
      · exact Or.inl (by simp [backgroundTask, hemb, hsv])
      · rcases hproj : projectTo3D env.pca
            (appendVec (readVectors st.vecFile) env.now vec) with _ | proj
        · exact Or.inl (by simp [backgroundTask, hemb, hsv, hproj])
        · rcases hsp : env.saveProjOk with _ | _
          · exact Or.inl (by simp [backgroundTask, hemb, hsv, hproj, hsp])
          · exact Or.inr ⟨appendVec (readVectors st.vecFile) env.now vec, proj,
              by simp [backgroundTask, hemb, hsv, hproj, hsp], hproj,
              by simp [backgroundTask, hemb, hsv, hproj, hsp]⟩
  · intro hsp
    rcases hemb : env.embedResult with e | vec
    · simp [backgroundTask, hemb]
    · rcases hsv : env.saveVecOk with _ | _
      · simp [backgroundTask, hemb, hsv]
      · rcases hproj : projectTo3D env.pca
            (appendVec (readVectors st.vecFile) env.now vec) with _ | proj
        · simp [backgroundTask, hemb, hsv, hproj]
        · simp [backgroundTask, hemb, hsv, hproj, hsp]

/-- C9 witness: a failed embedding leaves a populated state exactly as it
was. -/
theorem background_failure_isolated_witness :
    backgroundTask
      ⟨Except.error ['e'], zeroOracle, true, true, []⟩
      ⟨FileState.missing, FileState.ok [⟨1, [], [JSNum.num 1]⟩], FileState.missing⟩ =
    ⟨FileState.missing, FileState.ok [⟨1, [], [JSNum.num 1]⟩], FileState.missing⟩ :=
  (background_failure_isolated [] none []
    ⟨FileState.missing, FileState.ok [⟨1, [], [JSNum.num 1]⟩], FileState.missing⟩
    ⟨Except.error ['e'], zeroOracle, true, true, []⟩
    ⟨Except.error ['e'], zeroOracle, true, true, []⟩).2.2.1 ⟨['e'], rfl⟩

end RabbitHole
